import Mathlib

/-!
Shallow embedding of the `elf-parser` repository (src/src/bytes.rs, main.rs,
parser.rs, elf/ehdr.rs, elf/phdr.rs, elf/shdr.rs) and verification of the
frozen claims about its specification.

Modelling conventions:
* Byte buffers are `List Nat` (each element a byte value; the Rust type `u8`
  guarantees values `< 256`, which matters only where a theorem says so).
* A Rust function that can panic is modelled in the `POutcome` monad:
  `POutcome.ok` is a normal return, `POutcome.err` is a returned
  `Result::Err` value (the source's `ParseError` has the single variant
  `InvalidLength`), and `POutcome.abort` is a process abort — an
  `assert!`/`assert_eq!` failure, an `unwrap` of `Err`/`None`, an explicit
  `panic`/`unimplemented`/`unreachable` macro call, or an out-of-bounds
  slice index.
* `std::mem::transmute` of raw bytes into field-less enums is modelled by
  keeping the raw numeric value (the discriminant) itself.
-/

/-- The source's `ParseError` enum (src/parser.rs): its only variant. -/
inductive ParseError where
  | InvalidLength
deriving DecidableEq

/-- Result of running a fallible / panicking Rust computation. -/
inductive POutcome (α : Type) where
  | ok : α → POutcome α
  | err : ParseError → POutcome α
  | abort : POutcome α
deriving DecidableEq

/-- Sequencing that propagates `Err` values, modelling the `?` operator. -/
def POutcome.bind {α β : Type} : POutcome α → (α → POutcome β) → POutcome β
  | .ok a, f => f a
  | .err e, _ => .err e
  | .abort, _ => .abort

/-- Sequencing through `.unwrap()`: an `Err` (or an earlier abort) aborts. -/
def POutcome.unwrapBind {α β : Type} : POutcome α → (α → POutcome β) → POutcome β
  | .ok a, f => f a
  | .err _, _ => .abort
  | .abort, _ => .abort

def POutcome.isErr {α : Type} : POutcome α → Bool
  | .err _ => true
  | _ => false

def POutcome.isOk {α : Type} : POutcome α → Bool
  | .ok _ => true
  | _ => false

/-- Little-endian byte interpretation (`<int>::from_le_bytes`). -/
def fromLeBytes (bs : List Nat) : Nat :=
  bs.foldr (fun b acc => b + 256 * acc) 0

/-- Big-endian byte interpretation (`<int>::from_be_bytes`). -/
def fromBeBytes (bs : List Nat) : Nat :=
  bs.foldl (fun acc b => acc * 256 + b) 0

/-- Embeds `bytes::convert` (src/bytes.rs): endianness is the raw `ElfHData`
discriminant byte; `ElfData2Msb = 2` selects big-endian, anything else
little-endian. -/
def convert (bs : List Nat) (endianness : Nat) : Nat :=
  if endianness = 2 then fromBeBytes bs else fromLeBytes bs

/-- Reinterpret a `u64` bit pattern as an `i64` (two's complement). -/
def toI64 (n : Nat) : Int :=
  if n < 2 ^ 63 then (n : Int) else (n : Int) - 2 ^ 64

/-- Rust slicing `data[lo..hi]`: panics (aborts) when the range is invalid
or runs past the end of the buffer. -/
def rustSlice (data : List Nat) (lo hi : Nat) : POutcome (List Nat) :=
  if lo ≤ hi ∧ hi ≤ data.length then .ok ((data.drop lo).take (hi - lo)) else .abort

/-- Rust slicing `data[lo..]`. -/
def rustSliceFrom (data : List Nat) (lo : Nat) : POutcome (List Nat) :=
  if lo ≤ data.length then .ok (data.drop lo) else .abort

/-- Embeds `Iterator::position` / `filter ∘ map ∘ nth(0)`: index of the first
element satisfying the predicate. -/
def position {α : Type} (p : α → Bool) : List α → Option Nat
  | [] => none
  | a :: l => if p a then some 0 else (position p l).map (· + 1)

/-- Embeds `slice::chunks` with explicit fuel (the fuel is always instantiated with
the list length, which suffices whenever the chunk size is nonzero). -/
def chunksFuel {α : Type} (k : Nat) : Nat → List α → List (List α)
  | _, [] => []
  | 0, _ :: _ => []
  | fuel + 1, a :: l => ((a :: l).take k) :: chunksFuel k fuel ((a :: l).drop k)

/-- Embeds `slice::chunks(k)`: the caller is responsible for `k ≠ 0` (Rust panics
on a zero chunk size; the table parsers below check this explicitly). -/
def listChunks {α : Type} (k : Nat) (l : List α) : List (List α) :=
  chunksFuel k l.length l

/-- Embeds `Elf64Ident` (src/elf/ehdr.rs), produced by `transmute` from the first
16 bytes; enum fields keep their raw discriminant byte. -/
structure Elf64Ident where
  mag : List Nat
  cls : Nat
  data : Nat
  version : Nat
  os_abi : Nat
  abi_version : Nat
  pad : List Nat
deriving DecidableEq

/-- The identification block laid over a byte buffer, exactly as the
`transmute` in `parse_ident` reads it (valid once the buffer has ≥ 16
bytes). -/
def identOf (data : List Nat) : Elf64Ident :=
  { mag := data.take 4
    cls := data.getD 4 0
    data := data.getD 5 0
    version := data.getD 6 0
    os_abi := data.getD 7 0
    abi_version := data.getD 8 0
    pad := (data.drop 9).take 7 }

/-- Embeds `Elf64Hdr` (src/elf/ehdr.rs). `e_type` keeps the raw `u16`
(`ElfHType::Executable = 2` is the only value `parse` can produce). -/
structure Elf64Hdr where
  ident : Elf64Ident
  e_type : Nat
  machine : Nat
  version : Nat
  entry : Nat
  ph_off : Nat
  sh_off : Nat
  flags : Nat
  eh_size : Nat
  ph_ent_size : Nat
  ph_num : Nat
  sh_ent_size : Nat
  sh_num : Nat
  sh_str_ndx : Nat
deriving DecidableEq

/-- Embeds `Elf64Hdr::parse_ident`: `data.get(..16).ok_or(InvalidLength)?` then a
`transmute` of the copied 16 bytes. -/
def Elf64Hdr.parse_ident (data : List Nat) : POutcome Elf64Ident :=
  if data.length < 16 then .err .InvalidLength else .ok (identOf data)

/-- Decoded field at byte range `[lo, hi)` using the given endianness. -/
def fieldAt (data : List Nat) (lo hi : Nat) (e : Nat) : Nat :=
  convert ((data.drop lo).take (hi - lo)) e

/-- Embeds `Elf64Hdr::parse` (src/elf/ehdr.rs). The ident result is `.unwrap()`ed;
`e_type` goes through `ElfHType::try_from` (only `2` succeeds) and is then
`.unwrap()`ed; every field slice `data[a..=b]` aborts when out of range. -/
def Elf64Hdr.parse (data : List Nat) : POutcome Elf64Hdr :=
  (Elf64Hdr.parse_ident data).unwrapBind fun ident =>
  (rustSlice data 16 18).bind fun tB =>
  let t := convert tB ident.data
  if t = 2 then
    (rustSlice data 18 20).bind fun machineB =>
    (rustSlice data 20 24).bind fun versionB =>
    (rustSlice data 24 32).bind fun entryB =>
    (rustSlice data 32 40).bind fun phOffB =>
    (rustSlice data 40 48).bind fun shOffB =>
    (rustSlice data 48 52).bind fun flagsB =>
    (rustSlice data 52 54).bind fun ehSizeB =>
    (rustSlice data 54 56).bind fun phEntB =>
    (rustSlice data 56 58).bind fun phNumB =>
    (rustSlice data 58 60).bind fun shEntB =>
    (rustSlice data 60 62).bind fun shNumB =>
    (rustSlice data 62 64).bind fun shStrB =>
    .ok { ident := ident
          e_type := t
          machine := convert machineB ident.data
          version := convert versionB ident.data
          entry := convert entryB ident.data
          ph_off := convert phOffB ident.data
          sh_off := convert shOffB ident.data
          flags := convert flagsB ident.data
          eh_size := convert ehSizeB ident.data
          ph_ent_size := convert phEntB ident.data
          ph_num := convert phNumB ident.data
          sh_ent_size := convert shEntB ident.data
          sh_num := convert shNumB ident.data
          sh_str_ndx := convert shStrB ident.data }
  else .abort

/-- Embeds `Elf64Hdr::validate`: four `assert_eq!` checks (magic, 64-bit class,
little-endian encoding, current version); a failed assertion aborts. -/
def Elf64Hdr.validate (h : Elf64Hdr) : POutcome Elf64Hdr :=
  if h.ident.mag = [0x7f, 0x45, 0x4c, 0x46] ∧ h.ident.cls = 2 ∧
      h.ident.data = 1 ∧ h.ident.version = 1 then
    .ok h
  else .abort

/-- Embeds `PType` (src/elf/phdr.rs): the segment-type enumeration. -/
inductive PType where
  | PtNull
  | PtLoad
  | PtDynamic
  | PtInterp
  | PtNote
  | PtShlib
  | PtPhdr
  | PtTls
  | PtLoos
  | PtHios
  | PtLoProc
  | PtHiProc
deriving DecidableEq

/-- Embeds `impl TryFrom<u32> for PType` (src/elf/phdr.rs): values `< 8` are
transmuted directly; the `match` buckets `0x60000000..0x6fffffff`,
`0x6fffffff..0x70000000`, `0x70000000..0x7fffffff` and
`0x7fffffff..=0xffffffff`; any other value reaches the source's
`unreachable` arm, which aborts. -/
def PType.tryFrom (v : Nat) : POutcome PType :=
  if v < 8 then
    .ok (match v with
      | 0 => .PtNull
      | 1 => .PtLoad
      | 2 => .PtDynamic
      | 3 => .PtInterp
      | 4 => .PtNote
      | 5 => .PtShlib
      | 6 => .PtPhdr
      | _ => .PtTls)
  else if 0x60000000 ≤ v ∧ v < 0x6fffffff then .ok .PtLoos
  else if 0x6fffffff ≤ v ∧ v < 0x70000000 then .ok .PtHios
  else if 0x70000000 ≤ v ∧ v < 0x7fffffff then .ok .PtLoProc
  else if 0x7fffffff ≤ v ∧ v ≤ 0xffffffff then .ok .PtHiProc
  else .abort

/-- Embeds `DynValue` (src/elf/phdr.rs). `Address` is its `u64` payload. -/
inductive DynValue where
  | DVal : Nat → DynValue
  | DPtr : Nat → DynValue
deriving DecidableEq

/-- Embeds `ELF64Dyn` (src/elf/phdr.rs). -/
structure ELF64Dyn where
  d_tag : Int
  d_un : DynValue
deriving DecidableEq

/-- The associated function `ELF64Dyn::d_un` (renamed here to avoid
clashing with the field projection): even tags become `DPtr`, odd tags
`DVal`; the reserved-range branch (`d_tag < DT_ENCODING` or
`DT_HIOS < d_tag < DT_LOPROC`) also returns `DVal` with no
reinterpretation.  Rust's `%` on `i64` is truncated remainder (`tmod`). -/
def ELF64Dyn.decode_d_un (d_tag : Int) (v : Nat) : DynValue :=
  if d_tag.tmod 2 = 0 then .DPtr v
  else if d_tag < 32 ∨ (d_tag > 0x6ffff000 ∧ d_tag < 0x70000000) then .DVal v
  else .DVal v

/-- Embeds `PTypeData` (src/elf/phdr.rs): segment payload variants. -/
inductive PTypeData where
  | PtLoadData : List Nat → PTypeData
  | PtDynamicData : List ELF64Dyn → PTypeData
  | Ignorable
deriving DecidableEq

/-- Effectful map over a list: the iterator `map(...).collect()` pattern,
stopping at the first non-`ok` element. -/
def pmapM {α β : Type} (f : α → POutcome β) : List α → POutcome (List β)
  | [] => .ok []
  | a :: l =>
    match f a with
    | .ok b =>
      match pmapM f l with
      | .ok bs => .ok (b :: bs)
      | .err e => .err e
      | .abort => .abort
    | .err e => .err e
    | .abort => .abort

/-- Embeds `PTypeData::parse_section` (src/elf/phdr.rs).
`PtLoad`: `filesz > memsz` hits an explicit `panic` macro; otherwise a
zero-filled `memsz` buffer receives the `filesz` bytes at
`data[offset..offset+filesz]` (the slice aborts when out of range).
`PtDynamic`: the same extent is split by `chunks(16)`; each chunk's bytes
`0..=7` become the signed tag, bytes `8..=15` the raw value (short final
chunks abort at the inner slicing).  Every other type is `Ignorable`. -/
def PTypeData.parse_section (p_type : PType) (headers : Elf64Hdr)
    (filesz memsz offset : Nat) (data : List Nat) : POutcome PTypeData :=
  match p_type with
  | .PtLoad =>
    if filesz > memsz then .abort
    else
      (rustSlice data offset (offset + filesz)).bind fun sect =>
      .ok (.PtLoadData (sect ++ List.replicate (memsz - filesz) 0))
  | .PtDynamic =>
    (rustSlice data offset (offset + filesz)).bind fun sect =>
    (pmapM (fun s =>
        (rustSlice s 0 8).bind fun tagB =>
        let d_tag := toI64 (convert tagB headers.ident.data)
        (rustSlice s 8 16).bind fun vB =>
        .ok { d_tag := d_tag
              d_un := ELF64Dyn.decode_d_un d_tag (convert vB headers.ident.data) })
      (listChunks 16 sect)).bind fun entries =>
    .ok (.PtDynamicData entries)
  | _ => .ok .Ignorable

/-- Embeds `Elf64PHdr` (src/elf/phdr.rs): one program-header entry together with
its owned segment payload. `Address` fields carry their `u64` value. -/
structure Elf64PHdr where
  p_type : PType
  flags : Nat
  offset : Nat
  vaddr : Nat
  paddr : Nat
  filesz : Nat
  memsz : Nat
  align : Nat
  sectionData : PTypeData
deriving DecidableEq

/-- The per-record closure inside `Elf64PHdr::parse`: fixed field offsets
within one table record `sh`, `PType::try_from(...).unwrap()` on the type,
and `PTypeData::parse_section(...).unwrap()` for the payload. -/
def Elf64PHdr.parseRecord (data : List Nat) (headers : Elf64Hdr)
    (sh : List Nat) : POutcome Elf64PHdr :=
  (rustSlice sh 0 4).bind fun pTypeB =>
  (PType.tryFrom (convert pTypeB headers.ident.data)).unwrapBind fun p_type =>
  (rustSlice sh 32 40).bind fun fileszB =>
  let filesz := convert fileszB headers.ident.data
  (rustSlice sh 40 48).bind fun memszB =>
  let memsz := convert memszB headers.ident.data
  (rustSlice sh 8 16).bind fun offsetB =>
  let offset := convert offsetB headers.ident.data
  (PTypeData.parse_section p_type headers filesz memsz offset data).unwrapBind fun sect =>
  (rustSlice sh 4 8).bind fun flagsB =>
  (rustSlice sh 16 24).bind fun vaddrB =>
  (rustSlice sh 24 32).bind fun paddrB =>
  (rustSlice sh 48 56).bind fun alignB =>
  .ok { p_type := p_type
        flags := convert flagsB headers.ident.data
        offset := offset
        vaddr := convert vaddrB headers.ident.data
        paddr := convert paddrB headers.ident.data
        filesz := filesz
        memsz := memsz
        align := convert alignB headers.ident.data
        sectionData := sect }

/-- Embeds `Elf64PHdr::parse` (src/elf/phdr.rs):
`data[off..].chunks(siz).take(nth).map(...).collect()`.  The slice aborts
when `off` exceeds the buffer; `chunks` asserts a nonzero chunk size. -/
def Elf64PHdr.parse (data : List Nat) (headers : Elf64Hdr) :
    POutcome (List Elf64PHdr) :=
  let nth := headers.ph_num
  let off := headers.ph_off
  let siz := headers.ph_ent_size
  (rustSliceFrom data off).bind fun tail =>
  if siz = 0 then .abort
  else pmapM (Elf64PHdr.parseRecord data headers) ((listChunks siz tail).take nth)

/-- Embeds `StringTableType` (src/elf/shdr.rs). -/
inductive StringTableType where
  | StrTab
  | ShStrTab
  | DynSym
deriving DecidableEq

/-- Embeds `StringTable` (src/elf/shdr.rs). -/
structure StringTable where
  offset : Nat
  size : Nat
  table : List Nat
  sh_type : StringTableType
deriving DecidableEq

/-- Embeds `Elf64SHdr` (src/elf/shdr.rs): one section-header entry. -/
structure Elf64SHdr where
  name : Nat
  s_type : Nat
  flags : Nat
  addr : Nat
  offset : Nat
  size : Nat
  link : Nat
  info : Nat
  addr_align : Nat
  ent_size : Nat
deriving DecidableEq

/-- Embeds `Elf64SHdr::has_table`: a sub-table is present iff `ent_size ≠ 0`. -/
def Elf64SHdr.has_table (h : Elf64SHdr) : Bool :=
  h.ent_size != 0

/-- Embeds `Elf64SHdr::has_align_constraints`: alignment constraints iff
`addr_align ∉ {0, 1}`. -/
def Elf64SHdr.has_align_constraints (h : Elf64SHdr) : Bool :=
  h.addr_align != 0 && h.addr_align != 1

/-- Embeds `Elf64SHdr::parse_str_table` (src/elf/shdr.rs): asserts the section
type is `SHT_STRTAB` (3), copies `data[off..off+siz]` (aborting when out of
range), asserts the copy's length, and asserts that the first and last
bytes are NUL (`first()`/`last()` `.unwrap()` aborts on an empty table). -/
def Elf64SHdr.parse_str_table (data : List Nat) (section_header : Elf64SHdr)
    (is_header_table : Bool) : POutcome StringTable :=
  let off := section_header.offset
  let siz := section_header.size
  if section_header.s_type = 3 then
    (rustSlice data off (off + siz)).bind fun table =>
    if table.length = siz then
      match table.head?, table.getLast? with
      | some a, some b =>
        if a = 0 ∧ b = 0 then
          .ok { offset := off
                size := siz
                table := table
                sh_type := if is_header_table then .ShStrTab else .StrTab }
        else .abort
      | _, _ => .abort
    else .abort
  else .abort

/-- The per-record closure inside `Elf64SHdr::parse`: the fixed 64-byte
record layout. -/
def Elf64SHdr.parseRecord (endianness : Nat) (sh : List Nat) :
    POutcome Elf64SHdr :=
  (rustSlice sh 0 4).bind fun nameB =>
  (rustSlice sh 4 8).bind fun typeB =>
  (rustSlice sh 8 16).bind fun flagsB =>
  (rustSlice sh 16 24).bind fun addrB =>
  (rustSlice sh 24 32).bind fun offB =>
  (rustSlice sh 32 40).bind fun sizeB =>
  (rustSlice sh 40 44).bind fun linkB =>
  (rustSlice sh 44 48).bind fun infoB =>
  (rustSlice sh 48 56).bind fun alignB =>
  (rustSlice sh 56 64).bind fun entB =>
  .ok { name := convert nameB endianness
        s_type := convert typeB endianness
        flags := convert flagsB endianness
        addr := convert addrB endianness
        offset := convert offB endianness
        size := convert sizeB endianness
        link := convert linkB endianness
        info := convert infoB endianness
        addr_align := convert alignB endianness
        ent_size := convert entB endianness }

/-- Embeds `Elf64SHdr::parse` (src/elf/shdr.rs): a declared count at or above
`SHN_LORESERVE` (0xff00) hits the `unimplemented` macro (abort); otherwise
`data[off..].chunks(siz).take(nth).map(...).collect()`. -/
def Elf64SHdr.parse (data : List Nat) (headers : Elf64Hdr) :
    POutcome (List Elf64SHdr) :=
  let nth := headers.sh_num
  let off := headers.sh_off
  let siz := headers.sh_ent_size
  if nth ≥ 0xff00 then .abort
  else
    (rustSliceFrom data off).bind fun tail =>
    if siz = 0 then .abort
    else pmapM (Elf64SHdr.parseRecord headers.ident.data) ((listChunks siz tail).take nth)

/-- UTF-8 well-formedness of a byte sequence, as checked by Rust's
`String::from_utf8` (rejecting overlong forms, surrogates and values above
U+10FFFF). -/
def isValidUtf8 : List Nat → Bool
  | [] => true
  | b :: rest =>
    if b < 0x80 then isValidUtf8 rest
    else if b < 0xc2 then false
    else if b ≤ 0xdf then
      match rest with
      | c1 :: rest2 => (0x80 ≤ c1 && c1 ≤ 0xbf) && isValidUtf8 rest2
      | [] => false
    else if b ≤ 0xef then
      match rest with
      | c1 :: c2 :: rest2 =>
        (if b = 0xe0 then 0xa0 ≤ c1 && c1 ≤ 0xbf
         else if b = 0xed then 0x80 ≤ c1 && c1 ≤ 0x9f
         else 0x80 ≤ c1 && c1 ≤ 0xbf) &&
        (0x80 ≤ c2 && c2 ≤ 0xbf) && isValidUtf8 rest2
      | _ => false
    else if b ≤ 0xf4 then
      match rest with
      | c1 :: c2 :: c3 :: rest2 =>
        (if b = 0xf0 then 0x90 ≤ c1 && c1 ≤ 0xbf
         else if b = 0xf4 then 0x80 ≤ c1 && c1 ≤ 0x8f
         else 0x80 ≤ c1 && c1 ≤ 0xbf) &&
        (0x80 ≤ c2 && c2 ≤ 0xbf) && (0x80 ≤ c3 && c3 ≤ 0xbf) && isValidUtf8 rest2
      | _ => false
    else false

/-- Embeds `bytes::str_from_u8` (src/bytes.rs): scan to the first NUL (or the end
of the buffer), then `String::from_utf8(...).unwrap()` — invalid UTF-8
aborts.  A decoded string is represented by its byte sequence. -/
def str_from_u8 (src : List Nat) : POutcome (List Nat) :=
  let nul_range_end := (position (fun c => c == 0) src).getD src.length
  let s := src.take nul_range_end
  if isValidUtf8 s then .ok s else .abort

/-- Embeds `ElfParser` (src/parser.rs): the aggregated parse result.  Its fields
are exactly the four below; program headers are not among them. -/
structure ElfParser where
  headers : Elf64Hdr
  section_headers : List Elf64SHdr
  header_string_table_idx : Nat
  string_tables : List StringTable
deriving DecidableEq

/-- Embeds `ElfParser::get_sh_name` (src/parser.rs): `&str_table.table[idx..]`
(aborting when `idx` exceeds the table) fed to `str_from_u8`. -/
def ElfParser.get_sh_name (str_table : StringTable) (idx : Nat) :
    POutcome (List Nat) :=
  (rustSliceFrom str_table.table idx).bind str_from_u8

/-- Embeds `ElfParser::parse_string_tables` (src/parser.rs):
`section_headers.iter().enumerate().filter(s_type == SHT_STRTAB)` then
`Elf64SHdr::parse_str_table(..., idx == sh_str_ndx).unwrap()` per element,
collected into a `Vec` and wrapped in `Ok`. -/
def ElfParser.parse_string_tables (data : List Nat) (headers : Elf64Hdr)
    (section_headers : List Elf64SHdr) : POutcome (List StringTable) :=
  pmapM (fun (p : Nat × Elf64SHdr) =>
      (Elf64SHdr.parse_str_table data p.2 (p.1 == headers.sh_str_ndx)).unwrapBind
        fun (st : StringTable) => .ok st)
    ((section_headers.enum).filter (fun p => p.2.s_type == 3))

/-- Embeds `ElfParser::parse` (src/parser.rs).  In source order: parse and
`validate` the file header (`?` on the parse, assertions in `validate`);
parse the section headers (`?`); parse the string tables (`.unwrap()`);
find the first `ShStrTab`-tagged table (`.nth(0).unwrap()`); print every
section name (each `get_sh_name(...).unwrap()` may abort); aggregate.
`Elf64PHdr::parse` is never invoked. -/
def ElfParser.parse (data : List Nat) : POutcome ElfParser :=
  (Elf64Hdr.parse data).bind fun hdr0 =>
  (hdr0.validate).bind fun headers =>
  (Elf64SHdr.parse data headers).bind fun section_headers =>
  (ElfParser.parse_string_tables data headers section_headers).unwrapBind
    fun string_tables =>
  (match position (fun (st : StringTable) => st.sh_type == StringTableType.ShStrTab)
      string_tables with
   | some i => POutcome.ok i
   | none => POutcome.abort).bind fun header_string_table_idx =>
  (pmapM (fun (sh : Elf64SHdr) =>
      match string_tables.get? header_string_table_idx with
      | some st => (ElfParser.get_sh_name st sh.name).unwrapBind
          fun (s : List Nat) => .ok s
      | none => .abort)
    section_headers).bind fun _ =>
  .ok { headers := headers
        section_headers := section_headers
        header_string_table_idx := header_string_table_idx
        string_tables := string_tables }

/-! ### Concrete inputs used by witnesses and counterexamples -/

/-- A minimal well-formed little-endian 64-bit ELF buffer: executable file
type, one 64-byte section header at offset 64 describing a one-byte string
table (a single NUL) at offset 128, `sh_str_ndx = 0`, and an empty program
header table with `ph_ent_size = 0`. -/
def buf1 : List Nat :=
  [0x7f, 0x45, 0x4c, 0x46, 2, 1, 1, 0, 0] ++ List.replicate 7 0
  ++ [2, 0] ++ [0, 0] ++ List.replicate 4 0
  ++ List.replicate 8 0
  ++ List.replicate 8 0
  ++ [64, 0, 0, 0, 0, 0, 0, 0]
  ++ List.replicate 4 0
  ++ [0, 0] ++ [0, 0] ++ [0, 0]
  ++ [64, 0] ++ [1, 0] ++ [0, 0]
  ++ (List.replicate 4 0 ++ [3, 0, 0, 0] ++ List.replicate 16 0
      ++ [128, 0, 0, 0, 0, 0, 0, 0] ++ [1, 0, 0, 0, 0, 0, 0, 0]
      ++ List.replicate 24 0)
  ++ [0]

/-- The identification block of `buf1`. -/
def ident1 : Elf64Ident :=
  { mag := [0x7f, 0x45, 0x4c, 0x46], cls := 2, data := 1, version := 1,
    os_abi := 0, abi_version := 0, pad := List.replicate 7 0 }

/-- The file header of `buf1`. -/
def hdr1 : Elf64Hdr :=
  { ident := ident1, e_type := 2, machine := 0, version := 0, entry := 0,
    ph_off := 0, sh_off := 64, flags := 0, eh_size := 0, ph_ent_size := 0,
    ph_num := 0, sh_ent_size := 64, sh_num := 1, sh_str_ndx := 0 }

/-- The single section header of `buf1`. -/
def shdr1 : Elf64SHdr :=
  { name := 0, s_type := 3, flags := 0, addr := 0, offset := 128, size := 1,
    link := 0, info := 0, addr_align := 0, ent_size := 0 }

/-- The single string table of `buf1`. -/
def st1 : StringTable :=
  { offset := 128, size := 1, table := [0], sh_type := .ShStrTab }

/-- The parse result of `buf1`. -/
def res1 : ElfParser :=
  { headers := hdr1, section_headers := [shdr1], header_string_table_idx := 0,
    string_tables := [st1] }

/-- Buffer `buf1` with the file-type field (bytes 16–17) zeroed: its length is
still 64+ and its identification block is valid, but the type no longer
decodes to `Executable`.  Only the first 64 bytes are kept. -/
def buf9 : List Nat :=
  [0x7f, 0x45, 0x4c, 0x46, 2, 1, 1, 0, 0] ++ List.replicate 7 0
  ++ [0, 0] ++ [0, 0] ++ List.replicate 4 0
  ++ List.replicate 8 0
  ++ List.replicate 8 0
  ++ [64, 0, 0, 0, 0, 0, 0, 0]
  ++ List.replicate 4 0
  ++ [0, 0] ++ [0, 0] ++ [0, 0]
  ++ [64, 0] ++ [1, 0] ++ [0, 0]

/-- A header declaring a two-entry, 64-byte-per-entry section table at
offset 0 (used with a 64-byte buffer: only one complete record exists). -/
def hdr4 : Elf64Hdr :=
  { ident := ident1, e_type := 2, machine := 0, version := 0, entry := 0,
    ph_off := 0, sh_off := 0, flags := 0, eh_size := 0, ph_ent_size := 0,
    ph_num := 0, sh_ent_size := 64, sh_num := 2, sh_str_ndx := 0 }

/-- The all-zero section header record. -/
def shdr0 : Elf64SHdr :=
  { name := 0, s_type := 0, flags := 0, addr := 0, offset := 0, size := 0,
    link := 0, info := 0, addr_align := 0, ent_size := 0 }

/-- A header declaring a section count at the reserved threshold
`SHN_LORESERVE`. -/
def hdrOv : Elf64Hdr :=
  { ident := ident1, e_type := 2, machine := 0, version := 0, entry := 0,
    ph_off := 0, sh_off := 0, flags := 0, eh_size := 0, ph_ent_size := 0,
    ph_num := 0, sh_ent_size := 64, sh_num := 0xff00, sh_str_ndx := 0 }

/-- Another header above the reserved threshold. -/
def hdrOv2 : Elf64Hdr :=
  { ident := ident1, e_type := 2, machine := 0, version := 0, entry := 0,
    ph_off := 0, sh_off := 0, flags := 0, eh_size := 0, ph_ent_size := 0,
    ph_num := 0, sh_ent_size := 64, sh_num := 0xffff, sh_str_ndx := 0 }

/-- A 128-byte all-zero buffer (two all-zero 64-byte section records). -/
def d4 : List Nat := List.replicate 128 0

/-- A 32-byte buffer holding two 16-byte dynamic records: tags 2 (even)
and 1 (odd), values 9 and 7. -/
def dynBuf : List Nat :=
  [2, 0, 0, 0, 0, 0, 0, 0] ++ [9, 0, 0, 0, 0, 0, 0, 0]
  ++ [1, 0, 0, 0, 0, 0, 0, 0] ++ [7, 0, 0, 0, 0, 0, 0, 0]

/-- A tiny string table `[NUL, 'a', NUL]` used by the C8 witness. -/
def stW : StringTable := { offset := 0, size := 3, table := [0, 97, 0], sh_type := .StrTab }

/-- The specified decoding of the `i`-th 16-byte dynamic record of a
segment extent, written from the claim: a little-endian signed 64-bit tag
from bytes 0–7, an unsigned value from bytes 8–15, classified as a pointer
when the tag is even and as a scalar when it is odd. -/
def dynEntrySpec (sect : List Nat) (i : Nat) : ELF64Dyn :=
  let tag := toI64 (fromLeBytes ((sect.drop (16 * i)).take 8))
  let v := fromLeBytes ((sect.drop (16 * i + 8)).take 8)
  { d_tag := tag, d_un := if tag.tmod 2 = 0 then .DPtr v else .DVal v }

/-- The decoding of one full 16-byte dynamic chunk under the little-endian
encoding, as performed by the closure inside the `PtDynamic` arm. -/
def dynChunk (c : List Nat) : ELF64Dyn :=
  { d_tag := toI64 (fromLeBytes (c.take 8))
    d_un := ELF64Dyn.decode_d_un (toI64 (fromLeBytes (c.take 8)))
      (fromLeBytes ((c.drop 8).take 8)) }

/-- The file-type field of a buffer as `Elf64Hdr::parse` decodes it:
bytes 16–17 interpreted with the endianness given by byte 5. -/
def eTypeField (data : List Nat) : Nat :=
  fieldAt data 16 18 ((identOf data).data)

/-- The header record that `Elf64Hdr::parse` produces on success: every
field decoded from its fixed byte range with the endianness of byte 5. -/
def mkHdr (data : List Nat) : Elf64Hdr :=
  let ident := identOf data
  { ident := ident
    e_type := fieldAt data 16 18 ident.data
    machine := fieldAt data 18 20 ident.data
    version := fieldAt data 20 24 ident.data
    entry := fieldAt data 24 32 ident.data
    ph_off := fieldAt data 32 40 ident.data
    sh_off := fieldAt data 40 48 ident.data
    flags := fieldAt data 48 52 ident.data
    eh_size := fieldAt data 52 54 ident.data
    ph_ent_size := fieldAt data 54 56 ident.data
    ph_num := fieldAt data 56 58 ident.data
    sh_ent_size := fieldAt data 58 60 ident.data
    sh_num := fieldAt data 60 62 ident.data
    sh_str_ndx := fieldAt data 62 64 ident.data }

/-! ### Basic lemmas about the outcome monad -/

@[simp] theorem POutcome.bind_ok {α β : Type} (a : α) (f : α → POutcome β) :
    (POutcome.ok a).bind f = f a := rfl

@[simp] theorem POutcome.bind_err {α β : Type} (e : ParseError) (f : α → POutcome β) :
    (POutcome.err e).bind f = .err e := rfl

@[simp] theorem POutcome.bind_abort {α β : Type} (f : α → POutcome β) :
    (POutcome.abort).bind f = .abort := rfl

@[simp] theorem POutcome.unwrapBind_ok {α β : Type} (a : α) (f : α → POutcome β) :
    (POutcome.ok a).unwrapBind f = f a := rfl

@[simp] theorem POutcome.unwrapBind_err {α β : Type} (e : ParseError) (f : α → POutcome β) :
    (POutcome.err e).unwrapBind f = .abort := rfl

@[simp] theorem POutcome.unwrapBind_abort {α β : Type} (f : α → POutcome β) :
    (POutcome.abort).unwrapBind f = .abort := rfl

@[simp] theorem POutcome.isErr_ok {α : Type} (a : α) : (POutcome.ok a).isErr = false := rfl

@[simp] theorem POutcome.isErr_abort {α : Type} : (POutcome.abort : POutcome α).isErr = false := rfl

@[simp] theorem POutcome.isOk_ok {α : Type} (a : α) : (POutcome.ok a).isOk = true := rfl

theorem POutcome.bind_eq_ok {α β : Type} {x : POutcome α} {f : α → POutcome β}
    {b : β} (h : x.bind f = .ok b) : ∃ a, x = .ok a ∧ f a = .ok b := by
  cases x with
  | ok a => exact ⟨a, rfl, h⟩
  | err e => simp [POutcome.bind] at h
  | abort => simp [POutcome.bind] at h

theorem POutcome.unwrapBind_eq_ok {α β : Type} {x : POutcome α} {f : α → POutcome β}
    {b : β} (h : x.unwrapBind f = .ok b) : ∃ a, x = .ok a ∧ f a = .ok b := by
  cases x with
  | ok a => exact ⟨a, rfl, h⟩
  | err e => simp [POutcome.unwrapBind] at h
  | abort => simp [POutcome.unwrapBind] at h

theorem POutcome.isErr_bind {α β : Type} {x : POutcome α} {f : α → POutcome β}
    (hx : x.isErr = false) (hf : ∀ a, (f a).isErr = false) :
    (x.bind f).isErr = false := by
  cases x with
  | ok a => exact hf a
  | err e => simp [POutcome.isErr] at hx
  | abort => rfl

theorem POutcome.isErr_unwrapBind {α β : Type} {x : POutcome α} {f : α → POutcome β}
    (hf : ∀ a, (f a).isErr = false) : (x.unwrapBind f).isErr = false := by
  cases x with
  | ok a => exact hf a
  | err e => rfl
  | abort => rfl

theorem POutcome.eq_abort_of {α : Type} {x : POutcome α} (h1 : x.isErr = false)
    (h2 : ∀ a, x ≠ .ok a) : x = .abort := by
  cases x with
  | ok a => exact absurd rfl (h2 a)
  | err e => simp [POutcome.isErr] at h1
  | abort => rfl

/-! ### Lemmas about slicing -/

theorem rustSlice_eq_ok {data : List Nat} {lo hi : Nat} (h1 : lo ≤ hi)
    (h2 : hi ≤ data.length) :
    rustSlice data lo hi = .ok ((data.drop lo).take (hi - lo)) := by
  simp [rustSlice, h1, h2]

theorem rustSlice_eq_abort {data : List Nat} {lo hi : Nat}
    (h : ¬(lo ≤ hi ∧ hi ≤ data.length)) : rustSlice data lo hi = .abort := by
  simp only [rustSlice, if_neg h]

theorem rustSlice_ok_inv {data : List Nat} {lo hi : Nat} {s : List Nat}
    (h : rustSlice data lo hi = .ok s) :
    lo ≤ hi ∧ hi ≤ data.length ∧ s = (data.drop lo).take (hi - lo) := by
  by_cases hc : lo ≤ hi ∧ hi ≤ data.length
  · rw [rustSlice_eq_ok hc.1 hc.2] at h
    exact ⟨hc.1, hc.2, (POutcome.ok.injEq _ _ ▸ h).symm⟩
  · rw [rustSlice_eq_abort hc] at h
    cases h

theorem rustSlice_isErr {data : List Nat} {lo hi : Nat} :
    (rustSlice data lo hi).isErr = false := by
  unfold rustSlice; split <;> rfl

theorem rustSliceFrom_eq_ok {data : List Nat} {lo : Nat} (h : lo ≤ data.length) :
    rustSliceFrom data lo = .ok (data.drop lo) := by
  simp [rustSliceFrom, h]

theorem rustSliceFrom_ok_inv {data : List Nat} {lo : Nat} {s : List Nat}
    (h : rustSliceFrom data lo = .ok s) : lo ≤ data.length ∧ s = data.drop lo := by
  by_cases hc : lo ≤ data.length
  · rw [rustSliceFrom_eq_ok hc] at h
    exact ⟨hc, (POutcome.ok.injEq _ _ ▸ h).symm⟩
  · simp only [rustSliceFrom, if_neg hc] at h
    cases h

theorem rustSliceFrom_isErr {data : List Nat} {lo : Nat} :
    (rustSliceFrom data lo).isErr = false := by
  unfold rustSliceFrom; split <;> rfl

theorem rustSlice_ok_length {data : List Nat} {lo hi : Nat} {s : List Nat}
    (h : rustSlice data lo hi = .ok s) : s.length = hi - lo := by
  obtain ⟨h1, h2, h3⟩ := rustSlice_ok_inv h
  subst h3
  simp [List.length_take, List.length_drop]
  omega

/-! ### Lemmas about `pmapM` -/

theorem pmapM_eq_ok_length {α β : Type} {f : α → POutcome β} :
    ∀ {l : List α} {l' : List β}, pmapM f l = .ok l' → l'.length = l.length := by
  intro l
  induction l with
  | nil => intro l' h; cases h; rfl
  | cons a t ih =>
    intro l' h
    unfold pmapM at h
    cases hfa : f a with
    | ok b =>
      rw [hfa] at h
      cases hrec : pmapM f t with
      | ok bs =>
        rw [hrec] at h
        cases h
        simp [ih hrec]
      | err e => rw [hrec] at h; cases h
      | abort => rw [hrec] at h; cases h
    | err e => rw [hfa] at h; cases h
    | abort => rw [hfa] at h; cases h

theorem pmapM_eq_ok_get {α β : Type} {f : α → POutcome β} :
    ∀ {l : List α} {l' : List β}, pmapM f l = .ok l' →
      ∀ i a b, l.get? i = some a → l'.get? i = some b → f a = .ok b := by
  intro l
  induction l with
  | nil => intro l' _ i a b ha; cases ha
  | cons x t ih =>
    intro l' h i a b ha hb
    unfold pmapM at h
    cases hfa : f x with
    | ok y =>
      rw [hfa] at h
      cases hrec : pmapM f t with
      | ok ys =>
        rw [hrec] at h
        cases h
        cases i with
        | zero =>
          cases ha; cases hb
          exact hfa
        | succ j => exact ih hrec j a b ha hb
      | err e => rw [hrec] at h; cases h
      | abort => rw [hrec] at h; cases h
    | err e => rw [hfa] at h; cases h
    | abort => rw [hfa] at h; cases h

theorem pmapM_eq_ok_of_forall {α β : Type} {f : α → POutcome β} {g : α → β} :
    ∀ {l : List α}, (∀ a ∈ l, f a = .ok (g a)) → pmapM f l = .ok (l.map g) := by
  intro l
  induction l with
  | nil => intro _; rfl
  | cons a t ih =>
    intro h
    unfold pmapM
    rw [h a (List.mem_cons_self a t), ih (fun x hx => h x (List.mem_cons_of_mem a hx))]
    rfl

theorem pmapM_exists_ok {α β : Type} {f : α → POutcome β} :
    ∀ {l : List α}, (∀ a ∈ l, ∃ b, f a = .ok b) →
      ∃ l', pmapM f l = .ok l' ∧ l'.length = l.length := by
  intro l
  induction l with
  | nil => intro _; exact ⟨[], rfl, rfl⟩
  | cons a t ih =>
    intro h
    obtain ⟨b, hb⟩ := h a (List.mem_cons_self a t)
    obtain ⟨l', hl', hlen⟩ := ih (fun x hx => h x (List.mem_cons_of_mem a hx))
    refine ⟨b :: l', ?_, by simp [hlen]⟩
    unfold pmapM
    rw [hb, hl']

theorem pmapM_isErr {α β : Type} {f : α → POutcome β}
    (hf : ∀ a, (f a).isErr = false) :
    ∀ (l : List α), (pmapM f l).isErr = false := by
  intro l
  induction l with
  | nil => rfl
  | cons a t ih =>
    unfold pmapM
    cases hfa : f a with
    | ok b =>
      cases hrec : pmapM f t with
      | ok bs => rfl
      | err e => rw [hrec] at ih; cases ih
      | abort => rfl
    | err e => have := hf a; rw [hfa] at this; cases this
    | abort => rfl

/-! ### Lemmas about `chunksFuel` / `listChunks` -/

theorem chunksFuel_congr {α : Type} {k : Nat} (hk : 1 ≤ k) :
    ∀ (f1 f2 : Nat) (l : List α), l.length ≤ f1 → l.length ≤ f2 →
      chunksFuel k f1 l = chunksFuel k f2 l := by
  intro f1
  induction f1 with
  | zero =>
    intro f2 l h1 _
    cases l with
    | nil => cases f2 <;> rfl
    | cons a t => simp at h1
  | succ n ih =>
    intro f2 l h1 h2
    cases l with
    | nil => cases f2 <;> rfl
    | cons a t =>
      cases f2 with
      | zero => simp at h2
      | succ m =>
        simp only [chunksFuel]
        congr 1
        refine ih m ((a :: t).drop k) ?_ ?_ <;>
          simp only [List.length_drop, List.length_cons] at * <;> omega

theorem chunksFuel_fuel_irrel {α : Type} {k : Nat} (hk : 1 ≤ k)
    (fuel : Nat) (l : List α) (h : l.length ≤ fuel) :
    chunksFuel k fuel l = listChunks k l :=
  chunksFuel_congr hk fuel l.length l h (Nat.le_refl _)

theorem listChunks_cons {α : Type} {k : Nat} (hk : 1 ≤ k) (l : List α)
    (hl : l ≠ []) : listChunks k l = l.take k :: listChunks k (l.drop k) := by
  cases l with
  | nil => exact absurd rfl hl
  | cons a t =>
    show chunksFuel k (a :: t).length (a :: t) = _
    simp only [List.length_cons, chunksFuel]
    rw [chunksFuel_fuel_irrel hk t.length]
    simp only [List.length_drop, List.length_cons]
    omega

theorem listChunks_take_full {α : Type} {k : Nat} (hk : 1 ≤ k) :
    ∀ (n : Nat) (l : List α), n * k ≤ l.length →
      ((listChunks k l).take n).length = n ∧
        ∀ c ∈ (listChunks k l).take n, c.length = k := by
  intro n
  induction n with
  | zero => intro l _; exact ⟨rfl, by simp⟩
  | succ m ih =>
    intro l hl
    rw [Nat.succ_mul] at hl
    have hk' : k ≤ l.length := by omega
    have hne : l ≠ [] := by
      intro h
      rw [h] at hk'
      simp at hk'
      omega
    rw [listChunks_cons hk l hne]
    obtain ⟨ih1, ih2⟩ := ih (l.drop k) (by simp only [List.length_drop]; omega)
    constructor
    · simp [List.length_take] at ih1 ⊢
      omega
    · intro c hc
      simp only [List.take_succ_cons, List.mem_cons] at hc
      rcases hc with hc | hc
      · subst hc
        simp [List.length_take]
        omega
      · exact ih2 c hc

theorem listChunks_get? {α : Type} {k : Nat} (hk : 1 ≤ k) :
    ∀ (i : Nat) (l : List α), k * i < l.length →
      (listChunks k l).get? i = some ((l.drop (k * i)).take k) := by
  intro i
  induction i with
  | zero =>
    intro l hl
    have hne : l ≠ [] := by
      intro h
      rw [h] at hl
      simp at hl
    rw [listChunks_cons hk l hne]
    simp
  | succ j ih =>
    intro l hl
    rw [Nat.mul_succ] at hl
    have hne : l ≠ [] := by
      intro h
      rw [h] at hl
      simp at hl
    rw [listChunks_cons hk l hne]
    have hrec := ih (l.drop k) (by simp only [List.length_drop]; omega)
    simp only [List.get?_cons_succ]
    rw [hrec, List.drop_drop]
    have harith : k + k * j = k * (j + 1) := by
      rw [Nat.mul_succ]
      omega
    rw [harith]

/-! ### Lemmas about `position` -/

theorem position_eq_some {α : Type} {p : α → Bool} :
    ∀ {l : List α} {i : Nat}, position p l = some i →
      (∃ a, l.get? i = some a ∧ p a = true) ∧
        ∀ j, j < i → ∀ a, l.get? j = some a → p a = false := by
  intro l
  induction l with
  | nil => intro i h; cases h
  | cons a t ih =>
    intro i h
    unfold position at h
    by_cases hpa : p a = true
    · rw [if_pos hpa] at h
      cases h
      exact ⟨⟨a, rfl, hpa⟩, fun j hj => by omega⟩
    · rw [if_neg hpa] at h
      cases hpos : position p t with
      | none => rw [hpos] at h; cases h
      | some j =>
        rw [hpos] at h
        simp only [Option.map_some'] at h
        cases h
        obtain ⟨⟨b, hb, hpb⟩, hmin⟩ := ih hpos
        refine ⟨⟨b, hb, hpb⟩, ?_⟩
        intro m hm c hc
        cases m with
        | zero =>
          cases hc
          exact Bool.not_eq_true _ ▸ hpa
        | succ m' => exact hmin m' (by omega) c hc

theorem position_cons_eq {α : Type} (p : α → Bool) (a : α) (l : List α) :
    position p (a :: l) = if p a then some 0 else (position p l).map (· + 1) := rfl

/-- Taking `take` up to the first element satisfying `(· == 0)` is
`takeWhile` of the negation. -/
theorem take_position_eq_takeWhile (src : List Nat) :
    src.take ((position (fun c => c == 0) src).getD src.length) =
      src.takeWhile (fun b => !(b == 0)) := by
  induction src with
  | nil => rfl
  | cons a t ih =>
    rw [position_cons_eq]
    by_cases ha : a = 0
    · subst ha
      simp [List.takeWhile_cons]
    · have hba : (a == 0) = false := by simp [ha]
      rw [if_neg (by simp [hba])]
      simp only [List.takeWhile_cons, hba, Bool.not_false, if_true]
      cases hpos : position (fun c => c == 0) t with
      | none =>
        simp only [Option.map_none', Option.getD_none, List.length_cons]
        rw [hpos] at ih
        simp only [Option.getD_none] at ih
        simp [List.take_succ_cons, ih]
      | some j =>
        simp only [Option.map_some', Option.getD_some, List.take_succ_cons]
        rw [hpos] at ih
        simp only [Option.getD_some] at ih
        simp [ih]

/-! ### Characterization of `Elf64Hdr::parse` -/

theorem Elf64Hdr.parse_eq_ok (data : List Nat) (h64 : 64 ≤ data.length)
    (ht : eTypeField data = 2) : Elf64Hdr.parse data = .ok (mkHdr data) := by
  have hid : Elf64Hdr.parse_ident data = .ok (identOf data) := by
    unfold Elf64Hdr.parse_ident
    rw [if_neg (by omega)]
  unfold Elf64Hdr.parse
  rw [hid]
  simp only [POutcome.unwrapBind_ok]
  rw [rustSlice_eq_ok (by omega) (by omega),
      POutcome.bind_ok]
  unfold eTypeField fieldAt at ht
  simp only [ht, if_pos]
  rw [rustSlice_eq_ok (by omega) (by omega), POutcome.bind_ok,
      rustSlice_eq_ok (by omega) (by omega), POutcome.bind_ok,
      rustSlice_eq_ok (by omega) (by omega), POutcome.bind_ok,
      rustSlice_eq_ok (by omega) (by omega), POutcome.bind_ok,
      rustSlice_eq_ok (by omega) (by omega), POutcome.bind_ok,
      rustSlice_eq_ok (by omega) (by omega), POutcome.bind_ok,
      rustSlice_eq_ok (by omega) (by omega), POutcome.bind_ok,
      rustSlice_eq_ok (by omega) (by omega), POutcome.bind_ok,
      rustSlice_eq_ok (by omega) (by omega), POutcome.bind_ok,
      rustSlice_eq_ok (by omega) (by omega), POutcome.bind_ok,
      rustSlice_eq_ok (by omega) (by omega), POutcome.bind_ok,
      rustSlice_eq_ok (by omega) (by omega), POutcome.bind_ok]
  unfold mkHdr fieldAt
  norm_num
  norm_num at ht
  exact ht.symm

theorem Elf64Hdr.parse_hdr_ok_inv {data : List Nat} {hd : Elf64Hdr}
    (h : Elf64Hdr.parse data = .ok hd) :
    64 ≤ data.length ∧ eTypeField data = 2 ∧ hd = mkHdr data := by
  unfold Elf64Hdr.parse at h
  obtain ⟨ident, hident, h⟩ := POutcome.unwrapBind_eq_ok h
  obtain ⟨tB, htB, h⟩ := POutcome.bind_eq_ok h
  simp only at h
  split at h
  case isTrue ht =>
    obtain ⟨b1, hs1, h⟩ := POutcome.bind_eq_ok h
    obtain ⟨b2, hs2, h⟩ := POutcome.bind_eq_ok h
    obtain ⟨b3, hs3, h⟩ := POutcome.bind_eq_ok h
    obtain ⟨b4, hs4, h⟩ := POutcome.bind_eq_ok h
    obtain ⟨b5, hs5, h⟩ := POutcome.bind_eq_ok h
    obtain ⟨b6, hs6, h⟩ := POutcome.bind_eq_ok h
    obtain ⟨b7, hs7, h⟩ := POutcome.bind_eq_ok h
    obtain ⟨b8, hs8, h⟩ := POutcome.bind_eq_ok h
    obtain ⟨b9, hs9, h⟩ := POutcome.bind_eq_ok h
    obtain ⟨b10, hs10, h⟩ := POutcome.bind_eq_ok h
    obtain ⟨b11, hs11, h⟩ := POutcome.bind_eq_ok h
    obtain ⟨b12, hs12, h⟩ := POutcome.bind_eq_ok h
    obtain ⟨h16t, hlen, htBv⟩ := rustSlice_ok_inv htB
    obtain ⟨_, hlen64, hb12⟩ := rustSlice_ok_inv hs12
    have hident' : ident = identOf data := by
      unfold Elf64Hdr.parse_ident at hident
      split at hident
      · cases hident
      · cases hident; rfl
    constructor
    · exact hlen64
    constructor
    · unfold eTypeField fieldAt
      rw [← hident', ← htBv]
      exact ht
    · cases h
      obtain ⟨_, _, hb1⟩ := rustSlice_ok_inv hs1
      obtain ⟨_, _, hb2⟩ := rustSlice_ok_inv hs2
      obtain ⟨_, _, hb3⟩ := rustSlice_ok_inv hs3
      obtain ⟨_, _, hb4⟩ := rustSlice_ok_inv hs4
      obtain ⟨_, _, hb5⟩ := rustSlice_ok_inv hs5
      obtain ⟨_, _, hb6⟩ := rustSlice_ok_inv hs6
      obtain ⟨_, _, hb7⟩ := rustSlice_ok_inv hs7
      obtain ⟨_, _, hb8⟩ := rustSlice_ok_inv hs8
      obtain ⟨_, _, hb9⟩ := rustSlice_ok_inv hs9
      obtain ⟨_, _, hb10⟩ := rustSlice_ok_inv hs10
      obtain ⟨_, _, hb11⟩ := rustSlice_ok_inv hs11
      subst hb1 hb2 hb3 hb4 hb5 hb6 hb7 hb8 hb9 hb10 hb11 hb12 htBv hident'
      unfold mkHdr fieldAt
      norm_num
  case isFalse ht => cases h

theorem Elf64Hdr.parse_hdr_isErr (data : List Nat) :
    (Elf64Hdr.parse data).isErr = false := by
  unfold Elf64Hdr.parse
  apply POutcome.isErr_unwrapBind
  intro ident
  apply POutcome.isErr_bind rustSlice_isErr
  intro tB
  simp only
  split
  · apply POutcome.isErr_bind rustSlice_isErr; intro b1
    apply POutcome.isErr_bind rustSlice_isErr; intro b2
    apply POutcome.isErr_bind rustSlice_isErr; intro b3
    apply POutcome.isErr_bind rustSlice_isErr; intro b4
    apply POutcome.isErr_bind rustSlice_isErr; intro b5
    apply POutcome.isErr_bind rustSlice_isErr; intro b6
    apply POutcome.isErr_bind rustSlice_isErr; intro b7
    apply POutcome.isErr_bind rustSlice_isErr; intro b8
    apply POutcome.isErr_bind rustSlice_isErr; intro b9
    apply POutcome.isErr_bind rustSlice_isErr; intro b10
    apply POutcome.isErr_bind rustSlice_isErr; intro b11
    apply POutcome.isErr_bind rustSlice_isErr; intro b12
    rfl
  · rfl

theorem fieldAt_take64 (data : List Nat) (lo hi e : Nat) (h : hi ≤ 64) :
    fieldAt (data.take 64) lo hi e = fieldAt data lo hi e := by
  unfold fieldAt
  rw [List.drop_take, List.take_take]
  congr 2
  omega

theorem identOf_take64 (data : List Nat) : identOf (data.take 64) = identOf data := by
  have hg : ∀ i, i < 64 → (data.take 64).getD i 0 = data.getD i 0 := by
    intro i hi
    unfold List.getD
    rw [List.get?_take hi]
  unfold identOf
  rw [List.take_take, List.drop_take, List.take_take,
      hg 4 (by omega), hg 5 (by omega), hg 6 (by omega), hg 7 (by omega),
      hg 8 (by omega)]
  norm_num

theorem eTypeField_take64 (data : List Nat) :
    eTypeField (data.take 64) = eTypeField data := by
  unfold eTypeField
  rw [identOf_take64, fieldAt_take64 _ _ _ _ (by omega)]

theorem mkHdr_take64 (data : List Nat) : mkHdr (data.take 64) = mkHdr data := by
  unfold mkHdr
  simp only [identOf_take64]
  rw [fieldAt_take64 _ _ _ _ (by omega), fieldAt_take64 _ _ _ _ (by omega),
      fieldAt_take64 _ _ _ _ (by omega), fieldAt_take64 _ _ _ _ (by omega),
      fieldAt_take64 _ _ _ _ (by omega), fieldAt_take64 _ _ _ _ (by omega),
      fieldAt_take64 _ _ _ _ (by omega), fieldAt_take64 _ _ _ _ (by omega),
      fieldAt_take64 _ _ _ _ (by omega), fieldAt_take64 _ _ _ _ (by omega),
      fieldAt_take64 _ _ _ _ (by omega), fieldAt_take64 _ _ _ _ (by omega),
      fieldAt_take64 _ _ _ _ (by omega)]

theorem Elf64Hdr.parse_not_ok_short {data : List Nat} (h : data.length < 64) :
    ∀ hd, Elf64Hdr.parse data ≠ .ok hd := by
  intro hd hc
  have := (Elf64Hdr.parse_hdr_ok_inv hc).1
  omega

theorem Elf64Hdr.parse_eq_abort_short {data : List Nat} (h : data.length < 64) :
    Elf64Hdr.parse data = .abort :=
  POutcome.eq_abort_of (Elf64Hdr.parse_hdr_isErr data) (Elf64Hdr.parse_not_ok_short h)

theorem Elf64Hdr.parse_eq_abort_type {data : List Nat} (h : eTypeField data ≠ 2) :
    Elf64Hdr.parse data = .abort := by
  apply POutcome.eq_abort_of (Elf64Hdr.parse_hdr_isErr data)
  intro hd hc
  exact h (Elf64Hdr.parse_hdr_ok_inv hc).2.1

theorem Elf64Hdr.parse_take64 (data : List Nat) :
    Elf64Hdr.parse data = Elf64Hdr.parse (data.take 64) := by
  by_cases h64 : 64 ≤ data.length
  · by_cases ht : eTypeField data = 2
    · rw [Elf64Hdr.parse_eq_ok data h64 ht,
        Elf64Hdr.parse_eq_ok (data.take 64)
          (by simp [List.length_take]; omega)
          (by rw [eTypeField_take64]; exact ht),
        mkHdr_take64]
    · rw [Elf64Hdr.parse_eq_abort_type ht,
        Elf64Hdr.parse_eq_abort_type (by rw [eTypeField_take64]; exact ht)]
  · rw [List.take_of_length_le (by omega)]

theorem Elf64SHdr.parseRecord_ok {e : Nat} {sh : List Nat} (h : 64 ≤ sh.length) :
    ∃ r, Elf64SHdr.parseRecord e sh = .ok r := by
  unfold Elf64SHdr.parseRecord
  rw [rustSlice_eq_ok (by omega) (by omega), POutcome.bind_ok,
      rustSlice_eq_ok (by omega) (by omega), POutcome.bind_ok,
      rustSlice_eq_ok (by omega) (by omega), POutcome.bind_ok,
      rustSlice_eq_ok (by omega) (by omega), POutcome.bind_ok,
      rustSlice_eq_ok (by omega) (by omega), POutcome.bind_ok,
      rustSlice_eq_ok (by omega) (by omega), POutcome.bind_ok,
      rustSlice_eq_ok (by omega) (by omega), POutcome.bind_ok,
      rustSlice_eq_ok (by omega) (by omega), POutcome.bind_ok,
      rustSlice_eq_ok (by omega) (by omega), POutcome.bind_ok,
      rustSlice_eq_ok (by omega) (by omega), POutcome.bind_ok]
  exact ⟨_, rfl⟩

theorem Elf64SHdr.parse_shdr_ok_count {data : List Nat} {hdr : Elf64Hdr}
    (h1 : hdr.sh_num < 0xff00) (h2 : 64 ≤ hdr.sh_ent_size)
    (h3 : hdr.sh_off + hdr.sh_num * hdr.sh_ent_size ≤ data.length) :
    ∃ l, Elf64SHdr.parse data hdr = .ok l ∧ l.length = hdr.sh_num := by
  unfold Elf64SHdr.parse
  simp only
  rw [if_neg (by omega), rustSliceFrom_eq_ok (by
        have : hdr.sh_num * hdr.sh_ent_size ≥ 0 := Nat.zero_le _
        omega),
    POutcome.bind_ok, if_neg (by omega)]
  have htail : hdr.sh_num * hdr.sh_ent_size ≤ (data.drop hdr.sh_off).length := by
    simp only [List.length_drop]
    omega
  obtain ⟨hlen, hfull⟩ :=
    listChunks_take_full (k := hdr.sh_ent_size) (by omega) hdr.sh_num
      (data.drop hdr.sh_off) htail
  obtain ⟨l', hl', hlen'⟩ := pmapM_exists_ok
    (f := Elf64SHdr.parseRecord hdr.ident.data)
    (fun c hc => Elf64SHdr.parseRecord_ok (by rw [hfull c hc]; omega))
  exact ⟨l', hl', by rw [hlen', hlen]⟩

theorem Elf64PHdr.parse_phdr_ok_count {data : List Nat} {hdr : Elf64Hdr}
    {l : List Elf64PHdr} (h : Elf64PHdr.parse data hdr = .ok l)
    (hbound : hdr.ph_off + hdr.ph_num * hdr.ph_ent_size ≤ data.length) :
    l.length = hdr.ph_num := by
  unfold Elf64PHdr.parse at h
  simp only at h
  obtain ⟨tail, htail, h⟩ := POutcome.bind_eq_ok h
  obtain ⟨hoff, htl⟩ := rustSliceFrom_ok_inv htail
  by_cases hsiz : hdr.ph_ent_size = 0
  · rw [if_pos hsiz] at h; cases h
  · rw [if_neg hsiz] at h
    rw [pmapM_eq_ok_length h]
    subst htl
    exact (listChunks_take_full (k := hdr.ph_ent_size) (by omega) hdr.ph_num
      (data.drop hdr.ph_off) (by simp only [List.length_drop]; omega)).1

theorem Elf64SHdr.parse_overflow {data : List Nat} {hdr : Elf64Hdr}
    (h : 0xff00 ≤ hdr.sh_num) : Elf64SHdr.parse data hdr = .abort := by
  unfold Elf64SHdr.parse
  simp only
  rw [if_pos (by omega)]

theorem listChunks_length_exact {α : Type} {k : Nat} (hk : 1 ≤ k) :
    ∀ (n : Nat) (l : List α), l.length = n * k → (listChunks k l).length = n := by
  intro n
  induction n with
  | zero =>
    intro l hl
    simp only [Nat.zero_mul] at hl
    rw [List.length_eq_zero] at hl
    subst hl
    rfl
  | succ m ih =>
    intro l hl
    rw [Nat.succ_mul] at hl
    have hne : l ≠ [] := by
      intro h
      subst h
      simp at hl
      omega
    rw [listChunks_cons hk l hne]
    simp only [List.length_cons]
    rw [ih (l.drop k) (by simp only [List.length_drop]; omega)]

theorem ELF64Dyn.decode_d_un_eq (t : Int) (v : Nat) :
    ELF64Dyn.decode_d_un t v = if t.tmod 2 = 0 then .DPtr v else .DVal v := by
  unfold ELF64Dyn.decode_d_un
  split
  · rfl
  · split <;> rfl

theorem Elf64Hdr.validate_ok_inv {h hd : Elf64Hdr}
    (hv : Elf64Hdr.validate h = .ok hd) : hd = h := by
  unfold Elf64Hdr.validate at hv
  split at hv
  · cases hv; rfl
  · cases hv

theorem Elf64Hdr.validate_isErr (h : Elf64Hdr) :
    (Elf64Hdr.validate h).isErr = false := by
  unfold Elf64Hdr.validate
  split <;> rfl

theorem Elf64SHdr.parseRecord_shdr_isErr (e : Nat) (sh : List Nat) :
    (Elf64SHdr.parseRecord e sh).isErr = false := by
  unfold Elf64SHdr.parseRecord
  apply POutcome.isErr_bind rustSlice_isErr; intro b1
  apply POutcome.isErr_bind rustSlice_isErr; intro b2
  apply POutcome.isErr_bind rustSlice_isErr; intro b3
  apply POutcome.isErr_bind rustSlice_isErr; intro b4
  apply POutcome.isErr_bind rustSlice_isErr; intro b5
  apply POutcome.isErr_bind rustSlice_isErr; intro b6
  apply POutcome.isErr_bind rustSlice_isErr; intro b7
  apply POutcome.isErr_bind rustSlice_isErr; intro b8
  apply POutcome.isErr_bind rustSlice_isErr; intro b9
  apply POutcome.isErr_bind rustSlice_isErr; intro b10
  rfl

theorem Elf64SHdr.parse_shdr_isErr (data : List Nat) (hdr : Elf64Hdr) :
    (Elf64SHdr.parse data hdr).isErr = false := by
  unfold Elf64SHdr.parse
  simp only
  split
  · rfl
  · apply POutcome.isErr_bind rustSliceFrom_isErr
    intro tail
    split
    · rfl
    · exact pmapM_isErr (fun c => Elf64SHdr.parseRecord_shdr_isErr _ c) _

theorem PTypeData.parse_section_isErr (p : PType) (hdr : Elf64Hdr)
    (filesz memsz offset : Nat) (data : List Nat) :
    (PTypeData.parse_section p hdr filesz memsz offset data).isErr = false := by
  cases p <;> simp only [PTypeData.parse_section]
  case PtLoad =>
    split
    · rfl
    · apply POutcome.isErr_bind rustSlice_isErr
      intro s
      rfl
  case PtDynamic =>
    apply POutcome.isErr_bind rustSlice_isErr
    intro s
    apply POutcome.isErr_bind
    · apply pmapM_isErr
      intro c
      apply POutcome.isErr_bind rustSlice_isErr
      intro b1
      apply POutcome.isErr_bind rustSlice_isErr
      intro b2
      rfl
    · intro es
      rfl
  all_goals rfl

theorem Elf64PHdr.parseRecord_phdr_isErr (data : List Nat) (hdr : Elf64Hdr)
    (sh : List Nat) : (Elf64PHdr.parseRecord data hdr sh).isErr = false := by
  unfold Elf64PHdr.parseRecord
  apply POutcome.isErr_bind rustSlice_isErr; intro b1
  apply POutcome.isErr_unwrapBind; intro p_type
  apply POutcome.isErr_bind rustSlice_isErr; intro b2
  apply POutcome.isErr_bind rustSlice_isErr; intro b3
  apply POutcome.isErr_bind rustSlice_isErr; intro b4
  apply POutcome.isErr_unwrapBind; intro sect
  apply POutcome.isErr_bind rustSlice_isErr; intro b5
  apply POutcome.isErr_bind rustSlice_isErr; intro b6
  apply POutcome.isErr_bind rustSlice_isErr; intro b7
  apply POutcome.isErr_bind rustSlice_isErr; intro b8
  rfl

theorem Elf64PHdr.parse_phdr_isErr (data : List Nat) (hdr : Elf64Hdr) :
    (Elf64PHdr.parse data hdr).isErr = false := by
  unfold Elf64PHdr.parse
  simp only
  apply POutcome.isErr_bind rustSliceFrom_isErr
  intro tail
  split
  · rfl
  · exact pmapM_isErr (fun c => Elf64PHdr.parseRecord_phdr_isErr _ _ c) _

theorem ElfParser.parse_orch_isErr (data : List Nat) :
    (ElfParser.parse data).isErr = false := by
  unfold ElfParser.parse
  apply POutcome.isErr_bind (Elf64Hdr.parse_hdr_isErr data)
  intro hdr0
  apply POutcome.isErr_bind (Elf64Hdr.validate_isErr hdr0)
  intro headers
  apply POutcome.isErr_bind (Elf64SHdr.parse_shdr_isErr data headers)
  intro section_headers
  apply POutcome.isErr_unwrapBind
  intro string_tables
  apply POutcome.isErr_bind
  · split <;> rfl
  · intro i
    apply POutcome.isErr_bind
    · apply pmapM_isErr
      intro sh
      split
      · apply POutcome.isErr_unwrapBind
        intro s
        rfl
      · rfl
    · intro u
      rfl

theorem Elf64SHdr.parse_str_table_ok_inv {data : List Nat} {sh : Elf64SHdr}
    {flag : Bool} {st : StringTable}
    (h : Elf64SHdr.parse_str_table data sh flag = .ok st) :
    st.sh_type = (if flag then .ShStrTab else .StrTab) := by
  unfold Elf64SHdr.parse_str_table at h
  simp only at h
  split at h
  · obtain ⟨table, htab, h⟩ := POutcome.bind_eq_ok h
    split at h
    · split at h
      · split at h
        · cases h; rfl
        · cases h
      · cases h
    · cases h
  · cases h

theorem ElfParser.parse_orch_ok_inv {data : List Nat} {r : ElfParser}
    (h : ElfParser.parse data = .ok r) :
    Elf64Hdr.parse data = .ok r.headers ∧
    Elf64Hdr.validate r.headers = .ok r.headers ∧
    Elf64SHdr.parse data r.headers = .ok r.section_headers ∧
    ElfParser.parse_string_tables data r.headers r.section_headers = .ok r.string_tables ∧
    position (fun (st : StringTable) => st.sh_type == StringTableType.ShStrTab)
      r.string_tables = some r.header_string_table_idx := by
  unfold ElfParser.parse at h
  obtain ⟨hdr0, h1, h⟩ := POutcome.bind_eq_ok h
  obtain ⟨headers, h2, h⟩ := POutcome.bind_eq_ok h
  obtain ⟨shs, h3, h⟩ := POutcome.bind_eq_ok h
  obtain ⟨sts, h4, h⟩ := POutcome.unwrapBind_eq_ok h
  obtain ⟨i, h5, h⟩ := POutcome.bind_eq_ok h
  obtain ⟨u, h6, h⟩ := POutcome.bind_eq_ok h
  cases h
  have heq : headers = hdr0 := Elf64Hdr.validate_ok_inv h2
  subst heq
  have hpos : position (fun (st : StringTable) => st.sh_type == StringTableType.ShStrTab)
      sts = some i := by
    cases hp : position (fun (st : StringTable) => st.sh_type == StringTableType.ShStrTab)
        sts with
    | none => rw [hp] at h5; cases h5
    | some j => rw [hp] at h5; cases h5; rfl
  exact ⟨h1, h2, h3, h4, hpos⟩

theorem convert_one (bs : List Nat) : convert bs 1 = fromLeBytes bs := by
  unfold convert
  norm_num

theorem dynChunk_spec (sect : List Nat) (i : Nat) :
    dynChunk ((sect.drop (16 * i)).take 16) = dynEntrySpec sect i := by
  unfold dynChunk dynEntrySpec
  rw [List.take_take, List.drop_take, List.take_take, List.drop_drop,
    ELF64Dyn.decode_d_un_eq]
  norm_num

theorem parse_section_dynamic_spec (headers : Elf64Hdr) (filesz memsz offset : Nat)
    (data : List Nat) (h1 : headers.ident.data = 1)
    (h2 : offset + filesz ≤ data.length) (h3 : filesz % 16 = 0) :
    ∃ es, PTypeData.parse_section .PtDynamic headers filesz memsz offset data =
        .ok (.PtDynamicData es) ∧
      es.length = filesz / 16 ∧
      ∀ i, i < filesz / 16 →
        es.get? i = some (dynEntrySpec ((data.drop offset).take filesz) i) := by
  have hdvd : 16 * (filesz / 16) = filesz :=
    Nat.mul_div_cancel' (Nat.dvd_of_mod_eq_zero h3)
  have hslen : ((data.drop offset).take filesz).length = filesz := by
    simp only [List.length_take, List.length_drop]
    omega
  have hlenc : (listChunks 16 ((data.drop offset).take filesz)).length = filesz / 16 :=
    listChunks_length_exact (by omega) _ _ (by rw [hslen]; omega)
  have hfull : ∀ c ∈ listChunks 16 ((data.drop offset).take filesz), c.length = 16 := by
    have hq := listChunks_take_full (k := 16) (by omega) (filesz / 16)
      ((data.drop offset).take filesz) (by rw [hslen]; omega)
    rw [List.take_of_length_le (le_of_eq hlenc)] at hq
    exact hq.2
  simp only [PTypeData.parse_section]
  rw [rustSlice_eq_ok (by omega) (by omega), POutcome.bind_ok]
  have hoffn : offset + filesz - offset = filesz := by omega
  rw [hoffn]
  rw [pmapM_eq_ok_of_forall (g := dynChunk) ?hall]
  case hall =>
    intro c hc
    have hc16 := hfull c hc
    rw [rustSlice_eq_ok (by omega) (by omega), POutcome.bind_ok,
      rustSlice_eq_ok (by omega) (by omega), POutcome.bind_ok]
    unfold dynChunk
    rw [h1, convert_one, convert_one, List.drop_zero]
  rw [POutcome.bind_ok]
  refine ⟨_, rfl, ?_, ?_⟩
  · rw [List.length_map, hlenc]
  · intro i hi
    have h16i : 16 * i < filesz := by
      have hmul := Nat.mul_le_mul_left 16 (Nat.succ_le_of_lt hi)
      rw [Nat.mul_succ] at hmul
      omega
    rw [List.get?_map, listChunks_get? (by omega) i _ (by rw [hslen]; exact h16i)]
    simp only [Option.map_some']
    rw [dynChunk_spec]

theorem dropWhile_head_false {p : Nat → Bool} :
    ∀ (l : List Nat) (c : Nat) (rest : List Nat),
      l.dropWhile p = c :: rest → p c = false := by
  intro l
  induction l with
  | nil => intro c rest h; cases h
  | cons a t ih =>
    intro c rest h
    rw [List.dropWhile_cons] at h
    by_cases hp : p a = true
    · rw [if_pos hp] at h
      exact ih c rest h
    · rw [if_neg hp] at h
      cases h
      exact Bool.eq_false_iff.mpr hp

theorem takeWhile_eq_of_append {p : Nat → Bool} :
    ∀ (s : List Nat) (rest : List Nat) (c : Nat),
      (∀ b ∈ s, p b = true) → p c = false →
      (s ++ c :: rest).takeWhile p = s := by
  intro s
  induction s with
  | nil =>
    intro rest c _ hc
    simp [List.takeWhile_cons, hc]
  | cons a t ih =>
    intro rest c hall hc
    have ha : p a = true := hall a (List.mem_cons_self a t)
    simp only [List.cons_append, List.takeWhile_cons, ha, if_true]
    rw [ih rest c (fun b hb => hall b (List.mem_cons_of_mem a hb)) hc]

theorem str_from_u8_eq (src : List Nat) :
    str_from_u8 src =
      (if isValidUtf8 (src.takeWhile (fun b => !(b == 0))) then
        .ok (src.takeWhile (fun b => !(b == 0)))
      else .abort) := by
  unfold str_from_u8
  simp only
  rw [take_position_eq_takeWhile]

theorem get_sh_name_spec (st : StringTable) (idx : Nat) (h : idx ≤ st.table.length) :
    (∀ s, ElfParser.get_sh_name st idx = .ok s ↔
       (isValidUtf8 s = true ∧ (∀ b ∈ s, b ≠ 0) ∧
         (st.table.drop idx = s ∨ ∃ rest, st.table.drop idx = s ++ 0 :: rest)))
    ∧ (ElfParser.get_sh_name st idx = .abort ↔
        isValidUtf8 ((st.table.drop idx).takeWhile (fun b => !(b == 0))) = false) := by
  have hg : ElfParser.get_sh_name st idx = str_from_u8 (st.table.drop idx) := by
    unfold ElfParser.get_sh_name
    rw [rustSliceFrom_eq_ok h, POutcome.bind_ok]
  have hwne : ∀ b ∈ (st.table.drop idx).takeWhile (fun b => !(b == 0)), b ≠ 0 := by
    intro b hb
    have hb2 := List.mem_takeWhile_imp hb
    simpa using hb2
  have hdecomp : st.table.drop idx = (st.table.drop idx).takeWhile (fun b => !(b == 0)) ∨
      ∃ rest, st.table.drop idx =
        (st.table.drop idx).takeWhile (fun b => !(b == 0)) ++ 0 :: rest := by
    have hsplit := List.takeWhile_append_dropWhile (p := fun b => !(b == 0))
      (l := st.table.drop idx)
    cases hd : (st.table.drop idx).dropWhile (fun b => !(b == 0)) with
    | nil =>
      left
      rw [hd, List.append_nil] at hsplit
      exact hsplit.symm
    | cons c rest =>
      right
      have hc := dropWhile_head_false _ c rest hd
      have hc0 : c = 0 := by simpa using hc
      subst hc0
      rw [hd] at hsplit
      exact ⟨rest, hsplit.symm⟩
  constructor
  · intro s
    constructor
    · intro hok
      rw [hg, str_from_u8_eq] at hok
      split at hok
      case isTrue hv =>
        cases hok
        exact ⟨hv, hwne, hdecomp⟩
      case isFalse hv => cases hok
    · rintro ⟨hv, hnz, hdec⟩
      have hws : (st.table.drop idx).takeWhile (fun b => !(b == 0)) = s := by
        rcases hdec with hdec | ⟨rest, hdec⟩
        · rw [hdec]
          exact List.takeWhile_eq_self_iff.mpr (fun b hb => by simpa using hnz b hb)
        · rw [hdec]
          exact takeWhile_eq_of_append s rest 0
            (fun b hb => by simpa using hnz b hb) (by norm_num)
      rw [hg, str_from_u8_eq, hws, if_pos hv]
  · rw [hg, str_from_u8_eq]
    constructor
    · intro hab
      split at hab
      case isTrue => cases hab
      case isFalse hv => exact Bool.eq_false_iff.mpr hv
    · intro hnv
      rw [if_neg (by rw [hnv]; exact Bool.false_ne_true)]

/-! ### Shared concrete evaluation -/

set_option maxRecDepth 10000 in
/-- The minimal ELF buffer `buf1` parses successfully to `res1`. -/
theorem parse_buf1 : ElfParser.parse buf1 = .ok res1 := by decide

/-! ### The claims -/

/-- Claim C1, amended: whenever `ElfParser::parse` succeeds, the returned
result aggregates exactly the validated file header, the section headers in
table order, the string tables, and the position (within `string_tables`)
of the first section-name string table.  Program headers are neither parsed
nor part of the result (see the counterexample). -/
theorem claim_C1_result_components (data : List Nat) (r : ElfParser)
    (h : ElfParser.parse data = .ok r) :
    Elf64Hdr.parse data = .ok r.headers ∧
    Elf64Hdr.validate r.headers = .ok r.headers ∧
    Elf64SHdr.parse data r.headers = .ok r.section_headers ∧
    ElfParser.parse_string_tables data r.headers r.section_headers =
      .ok r.string_tables ∧
    position (fun (st : StringTable) => st.sh_type == StringTableType.ShStrTab)
      r.string_tables = some r.header_string_table_idx :=
  ElfParser.parse_orch_ok_inv h

set_option maxRecDepth 10000 in
/-- Claim C1 counterexample: the orchestrator's parse succeeds on `buf1`,
yet the program-header table of that very buffer cannot even be parsed
(`Elf64PHdr::parse` aborts on it, because `ph_ent_size` is zero), so the
successful result cannot contain the ordered sequence of program headers
the claim promises — `ElfParser::parse` never invokes `Elf64PHdr::parse`
and its result has no program-header component. -/
theorem claim_C1_counterexample :
    ElfParser.parse buf1 = .ok res1 ∧
    Elf64PHdr.parse buf1 res1.headers = .abort := by
  constructor <;> decide

/-- Claim C1 witness: the amended characterization instantiated on the
concrete successful parse of `buf1`. -/
theorem claim_C1_witness :
    Elf64Hdr.parse buf1 = .ok res1.headers ∧
    Elf64Hdr.validate res1.headers = .ok res1.headers ∧
    Elf64SHdr.parse buf1 res1.headers = .ok res1.section_headers ∧
    ElfParser.parse_string_tables buf1 res1.headers res1.section_headers =
      .ok res1.string_tables ∧
    position (fun (st : StringTable) => st.sh_type == StringTableType.ShStrTab)
      res1.string_tables = some res1.header_string_table_idx :=
  claim_C1_result_components buf1 res1 parse_buf1

/-- Claim C2, amended: `ElfParser::parse` never returns a typed failure
value — every decode failure aborts the process (assertion, `unwrap`,
`unimplemented`, or slice panic); the only typed error the code can
construct, `InvalidLength`, is unwrapped inside `Elf64Hdr::parse`. -/
theorem claim_C2_no_typed_failure (data : List Nat) :
    (ElfParser.parse data).isErr = false :=
  ElfParser.parse_orch_isErr data

set_option maxRecDepth 10000 in
/-- Claim C2 counterexample: a 64-byte all-zero buffer is a decode failure
(unrecognized file type), and the whole parse aborts instead of returning
a typed failure value to the caller. -/
theorem claim_C2_counterexample :
    ElfParser.parse (List.replicate 64 0) = .abort := by decide

/-- Claim C3, amended: for a loadable segment with `filesz ≤ memsz` whose
extent lies within the buffer, the image has length exactly `memsz`, its
first `filesz` bytes are the source bytes at the segment's offset, and the
rest is zero; for `filesz > memsz` the entry's parse aborts (an explicit
panic) rather than returning a typed MalformedSegment error, which does
not exist in the code. -/
theorem claim_C3_load_image (headers : Elf64Hdr) (filesz memsz offset : Nat)
    (data : List Nat) :
    (filesz ≤ memsz → offset + filesz ≤ data.length →
      ∃ img, PTypeData.parse_section .PtLoad headers filesz memsz offset data =
          .ok (.PtLoadData img) ∧
        img.length = memsz ∧
        img.take filesz = (data.drop offset).take filesz ∧
        img.drop filesz = List.replicate (memsz - filesz) 0) ∧
    (memsz < filesz →
      PTypeData.parse_section .PtLoad headers filesz memsz offset data = .abort) := by
  constructor
  · intro h1 h2
    simp only [PTypeData.parse_section]
    rw [if_neg (by omega), rustSlice_eq_ok (by omega) (by omega), POutcome.bind_ok]
    have hoffn : offset + filesz - offset = filesz := by omega
    rw [hoffn]
    have hslen : ((data.drop offset).take filesz).length = filesz := by
      simp only [List.length_take, List.length_drop]
      omega
    refine ⟨_, rfl, ?_, ?_, ?_⟩
    · simp only [List.length_append, List.length_replicate, hslen]
      omega
    · rw [List.take_left' hslen]
    · rw [List.drop_left' hslen]
  · intro h1
    simp only [PTypeData.parse_section]
    rw [if_pos (by omega)]

/-- Claim C3 counterexample: with `filesz = 2 > memsz = 1` the loadable
entry's parse aborts (the source's explicit panic); it is not a typed
error value — no MalformedSegment variant exists in `ParseError`. -/
theorem claim_C3_counterexample :
    PTypeData.parse_section .PtLoad hdr1 2 1 0 [0, 0] = .abort ∧
    (PTypeData.parse_section .PtLoad hdr1 2 1 0 [0, 0]).isErr = false := by
  constructor <;> decide

/-- Claim C3 witness: the image construction evaluated on a concrete
loadable segment with `filesz = 2`, `memsz = 4`. -/
theorem claim_C3_witness :
    ∃ img, PTypeData.parse_section .PtLoad hdr1 2 4 0 [5, 6] =
        .ok (.PtLoadData img) ∧
      img.length = 4 ∧
      img.take 2 = (([5, 6] : List Nat).drop 0).take 2 ∧
      img.drop 2 = List.replicate (4 - 2) 0 :=
  (claim_C3_load_image hdr1 2 4 0 [5, 6]).1 (by decide) (by decide)

/-- Claim C4, amended: when the bytes from the table offset cover
`count × entry-size`, the section-header parser returns exactly `count`
records (each cut from consecutive `entry-size` chunks), and any successful
program-header parse under the same coverage also has exactly `count`
entries; but when the available bytes run out, the parsers do not raise a
fatal error — they silently return however many records fit (see the
counterexample), and only a trailing chunk too short for a record's fields
aborts. -/
theorem claim_C4_table_partition (data : List Nat) (hdr : Elf64Hdr) :
    (hdr.sh_num < 0xff00 → 64 ≤ hdr.sh_ent_size →
      hdr.sh_off + hdr.sh_num * hdr.sh_ent_size ≤ data.length →
      ∃ l, Elf64SHdr.parse data hdr = .ok l ∧ l.length = hdr.sh_num) ∧
    (∀ l, Elf64PHdr.parse data hdr = .ok l →
      hdr.ph_off + hdr.ph_num * hdr.ph_ent_size ≤ data.length →
      l.length = hdr.ph_num) :=
  ⟨fun h1 h2 h3 => Elf64SHdr.parse_shdr_ok_count h1 h2 h3,
   fun _ hok hb => Elf64PHdr.parse_phdr_ok_count hok hb⟩

set_option maxRecDepth 10000 in
/-- Claim C4 counterexample: `hdr4` declares `sh_num = 2` section records,
but a 64-byte buffer holds only one complete record — the parser returns a
single entry with no error, refuting "a fatal decode error rather than
returning a sequence with fewer than count entries". -/
theorem claim_C4_counterexample :
    hdr4.sh_num = 2 ∧
    Elf64SHdr.parse (List.replicate 64 0) hdr4 = .ok [shdr0] := by
  constructor
  · rfl
  · decide

set_option maxRecDepth 10000 in
/-- Claim C4 witness: with 128 bytes available, the two declared records
are parsed in full. -/
theorem claim_C4_witness :
    ∃ l, Elf64SHdr.parse d4 hdr4 = .ok l ∧ l.length = hdr4.sh_num :=
  (claim_C4_table_partition d4 hdr4).1 (by decide) (by decide) (by decide)

/-- Claim C5 evaluation: `PType::try_from` is not total — the value `8`
(and every value in `[8, 0x60000000)`, e.g. `0x5fffffff`) falls through to
the source's `unreachable` arm and aborts, while values below 8 and the
reserved ranges decode as documented. -/
theorem claim_C5_ptype_unreachable :
    PType.tryFrom 8 = .abort ∧
    PType.tryFrom 7 = .ok .PtTls ∧
    PType.tryFrom 0x5fffffff = .abort ∧
    PType.tryFrom 0x60000000 = .ok .PtLoos ∧
    PType.tryFrom 0x6fffffff = .ok .PtHios ∧
    PType.tryFrom 0x70000000 = .ok .PtLoProc ∧
    PType.tryFrom 0x7fffffff = .ok .PtHiProc := by
  refine ⟨?_, ?_, ?_, ?_, ?_, ?_, ?_⟩ <;> decide

/-- Claim C6, amended: a declared section count at or above
`SHN_LORESERVE` (0xff00) makes the section parser abort at the source's
`unimplemented` macro — it never silently truncates, but no typed
UnsupportedSectionTableOverflow error value exists to be returned. -/
theorem claim_C6_overflow_aborts (data : List Nat) (hdr : Elf64Hdr)
    (h : 0xff00 ≤ hdr.sh_num) : Elf64SHdr.parse data hdr = .abort :=
  Elf64SHdr.parse_overflow h

/-- Claim C6 counterexample: at the threshold itself the parse aborts; the
outcome is not a typed error value of any kind. -/
theorem claim_C6_counterexample :
    Elf64SHdr.parse [] hdrOv = .abort ∧
    (Elf64SHdr.parse [] hdrOv).isErr = false := by
  constructor <;> decide

/-- Claim C6 witness: the amended statement applied to a concrete header
above the threshold. -/
theorem claim_C6_witness : Elf64SHdr.parse [] hdrOv2 = .abort :=
  claim_C6_overflow_aborts [] hdrOv2 (by decide)

/-- Claim C7: a dynamic segment whose extent lies in the buffer and whose
file size is a multiple of 16 is decoded into one entry per consecutive
16-byte record — a little-endian signed 64-bit tag from bytes 0–7, an
unsigned 64-bit value from bytes 8–15, classified as a pointer Address for
even tags and as a scalar for odd tags (the reserved sub-range gets the
value with no extra reinterpretation). -/
theorem claim_C7_dynamic_records (headers : Elf64Hdr)
    (filesz memsz offset : Nat) (data : List Nat)
    (h1 : headers.ident.data = 1) (h2 : offset + filesz ≤ data.length)
    (h3 : filesz % 16 = 0) :
    ∃ es, PTypeData.parse_section .PtDynamic headers filesz memsz offset data =
        .ok (.PtDynamicData es) ∧
      es.length = filesz / 16 ∧
      ∀ i, i < filesz / 16 →
        es.get? i = some (dynEntrySpec ((data.drop offset).take filesz) i) :=
  parse_section_dynamic_spec headers filesz memsz offset data h1 h2 h3

/-- Claim C7 witness: two concrete records — tag 2 (even) becomes a
pointer, tag 1 (odd) a scalar. -/
theorem claim_C7_witness :
    (∃ es, PTypeData.parse_section .PtDynamic hdr1 32 0 0 dynBuf =
        .ok (.PtDynamicData es) ∧
      es.length = 32 / 16 ∧
      ∀ i, i < 32 / 16 →
        es.get? i = some (dynEntrySpec ((dynBuf.drop 0).take 32) i)) ∧
    PTypeData.parse_section .PtDynamic hdr1 32 0 0 dynBuf =
      .ok (.PtDynamicData
        [{ d_tag := 2, d_un := .DPtr 9 }, { d_tag := 1, d_un := .DVal 7 }]) :=
  ⟨claim_C7_dynamic_records hdr1 32 0 0 dynBuf rfl (by decide) (by decide),
   by decide⟩

/-- Claim C8: for a string table and an offset into it, name resolution
succeeds with exactly the bytes from that offset up to (excluding) the
first NUL — or up to the buffer end when no NUL follows — precisely when
that span is valid text, and aborts (the `unwrap` of `from_utf8`)
precisely when the span is not valid text. -/
theorem claim_C8_name_resolution (st : StringTable) (idx : Nat)
    (h : idx ≤ st.table.length) :
    (∀ s, ElfParser.get_sh_name st idx = .ok s ↔
       (isValidUtf8 s = true ∧ (∀ b ∈ s, b ≠ 0) ∧
         (st.table.drop idx = s ∨ ∃ rest, st.table.drop idx = s ++ 0 :: rest)))
    ∧ (ElfParser.get_sh_name st idx = .abort ↔
        isValidUtf8 ((st.table.drop idx).takeWhile (fun b => !(b == 0))) = false) :=
  get_sh_name_spec st idx h

/-- Claim C8 witness: the characterization applied to the concrete table
`[NUL, 'a', NUL]` at offset 1. -/
theorem claim_C8_witness :
    (∀ s, ElfParser.get_sh_name stW 1 = .ok s ↔
       (isValidUtf8 s = true ∧ (∀ b ∈ s, b ≠ 0) ∧
         (stW.table.drop 1 = s ∨ ∃ rest, stW.table.drop 1 = s ++ 0 :: rest)))
    ∧ (ElfParser.get_sh_name stW 1 = .abort ↔
        isValidUtf8 ((stW.table.drop 1).takeWhile (fun b => !(b == 0))) = false) :=
  claim_C8_name_resolution stW 1 (by decide)

/-- Claim C9, amended: `Elf64Hdr::parse` reads only bytes 0–63; it never
propagates an `Err` value (the `InvalidLength` from `parse_ident` is
unwrapped); any buffer shorter than 64 bytes makes it abort; and on a
buffer of length ≥ 64 it succeeds exactly when the file-type field
(bytes 16–17 under the declared encoding) decodes to 2, aborting
otherwise — so it does not succeed on *every* buffer of length ≥ 64. -/
theorem claim_C9_hdr_parse_behavior (data : List Nat) :
    (Elf64Hdr.parse data).isErr = false ∧
    (data.length < 64 → Elf64Hdr.parse data = .abort) ∧
    Elf64Hdr.parse data = Elf64Hdr.parse (data.take 64) ∧
    (64 ≤ data.length →
      ((∃ hd, Elf64Hdr.parse data = .ok hd) ↔ eTypeField data = 2)) := by
  refine ⟨Elf64Hdr.parse_hdr_isErr data, Elf64Hdr.parse_eq_abort_short,
    Elf64Hdr.parse_take64 data, fun h64 => ⟨?_, ?_⟩⟩
  · rintro ⟨hd, hok⟩
    exact (Elf64Hdr.parse_hdr_ok_inv hok).2.1
  · intro ht
    exact ⟨mkHdr data, Elf64Hdr.parse_eq_ok data h64 ht⟩

set_option maxRecDepth 10000 in
/-- Claim C9 counterexample: `buf9` is 64 bytes long with a well-formed
identification block, yet `Elf64Hdr::parse` aborts on it (its file-type
field is 0, whose `try_from` is unwrapped) — refuting "returns
successfully on every buffer of length at least 64". -/
theorem claim_C9_counterexample :
    buf9.length = 64 ∧ Elf64Hdr.parse buf9 = .abort := by
  constructor <;> decide

set_option maxRecDepth 10000 in
/-- Claim C9 witness: the success criterion applied to `buf1`. -/
theorem claim_C9_witness : ∃ hd, Elf64Hdr.parse buf1 = .ok hd :=
  ((claim_C9_hdr_parse_behavior buf1).2.2.2 (by decide)).mpr (by decide)

/-- Claim C10: on every successful parse, `string_tables` holds exactly the
`SHT_STRTAB` sections in section-table order; a table is tagged as the
section-name table iff its section-header index equals the header's
`sh_str_ndx`; and `header_string_table_idx` is the position inside
`string_tables` of the first such tagged table, which always exists. -/
theorem claim_C10_string_tables (data : List Nat) (r : ElfParser)
    (h : ElfParser.parse data = .ok r) :
    r.string_tables.length =
      ((r.section_headers.enum).filter (fun p => p.2.s_type == 3)).length ∧
    (∀ i p st,
      ((r.section_headers.enum).filter (fun p => p.2.s_type == 3)).get? i =
        some p →
      r.string_tables.get? i = some st →
      Elf64SHdr.parse_str_table data p.2 (p.1 == r.headers.sh_str_ndx) =
        .ok st ∧
        (st.sh_type = StringTableType.ShStrTab ↔ p.1 = r.headers.sh_str_ndx)) ∧
    (∃ st, r.string_tables.get? r.header_string_table_idx = some st ∧
      st.sh_type = StringTableType.ShStrTab) ∧
    (∀ j st, j < r.header_string_table_idx → r.string_tables.get? j = some st →
      st.sh_type ≠ StringTableType.ShStrTab) := by
  obtain ⟨h1, h2, h3, h4, h5⟩ := ElfParser.parse_orch_ok_inv h
  unfold ElfParser.parse_string_tables at h4
  refine ⟨pmapM_eq_ok_length h4, ?_, ?_, ?_⟩
  · intro i p st hp hst
    have hfi := pmapM_eq_ok_get h4 i p st hp hst
    obtain ⟨st', hst', heq⟩ := POutcome.unwrapBind_eq_ok hfi
    cases heq
    refine ⟨hst', ?_⟩
    have hty := Elf64SHdr.parse_str_table_ok_inv hst'
    cases hb : (p.1 == r.headers.sh_str_ndx) with
    | true =>
      rw [hb] at hty
      simp only [if_true] at hty
      exact ⟨fun _ => eq_of_beq hb, fun _ => hty⟩
    | false =>
      rw [hb] at hty
      simp at hty
      constructor
      · intro hc
        rw [hty] at hc
        cases hc
      · intro hc
        rw [hc] at hb
        simp at hb
  · obtain ⟨⟨st, hget, hpst⟩, _⟩ := position_eq_some h5
    refine ⟨st, hget, ?_⟩
    simpa using hpst
  · intro j st hj hget
    obtain ⟨_, hmin⟩ := position_eq_some h5
    have hps := hmin j hj st hget
    simpa using hps

/-- Claim C10 witness: the invariants instantiated on the concrete
successful parse of `buf1`. -/
theorem claim_C10_witness :
    res1.string_tables.length =
      ((res1.section_headers.enum).filter (fun p => p.2.s_type == 3)).length ∧
    (∀ i p st,
      ((res1.section_headers.enum).filter (fun p => p.2.s_type == 3)).get? i =
        some p →
      res1.string_tables.get? i = some st →
      Elf64SHdr.parse_str_table buf1 p.2 (p.1 == res1.headers.sh_str_ndx) =
        .ok st ∧
        (st.sh_type = StringTableType.ShStrTab ↔
          p.1 = res1.headers.sh_str_ndx)) ∧
    (∃ st, res1.string_tables.get? res1.header_string_table_idx = some st ∧
      st.sh_type = StringTableType.ShStrTab) ∧
    (∀ j st, j < res1.header_string_table_idx →
      res1.string_tables.get? j = some st →
      st.sh_type ≠ StringTableType.ShStrTab) :=
  claim_C10_string_tables buf1 res1 parse_buf1
